import Mathlib

/-! Verification of the ShadowScanner LSB steganalysis core.

Shallow embedding of src/services/steganalysisService.ts (the error
function, the chi-square CDF and the analyzeLSB estimator) and of the
classifier branch of src/App.tsx. Pixel buffers are lists of natural
numbers (the byte values of the decoded image); real-number arithmetic
of the source is modelled over the reals, with the exactly-rational
intermediate quantities (histograms, chi-square statistic, degrees of
freedom) kept in computable types so they evaluate on concrete inputs. -/

namespace ShadowScanner

/-! ## Data model (src/types.ts) -/

/-- Embedding of the ResultStatus enum of src/types.ts. -/
inductive ResultStatus
  | Clean
  | Indeterminate
  | Suspicious
deriving DecidableEq, Repr

/-! ## The error function (src/services/steganalysisService.ts, lines 8-23) -/

/-- Coefficient a1 of the erf approximation. -/
def a1 : ℝ := 0.254829592

/-- Coefficient a2 of the erf approximation. -/
def a2 : ℝ := -0.284496736

/-- Coefficient a3 of the erf approximation. -/
def a3 : ℝ := 1.421413741

/-- Coefficient a4 of the erf approximation. -/
def a4 : ℝ := -1.453152027

/-- Coefficient a5 of the erf approximation. -/
def a5 : ℝ := 1.061405429

/-- Coefficient p of the erf approximation. -/
def p : ℝ := 0.3275911

/-- Embedding of the erf helper: sign is 1 for x greater or equal 0 and -1
otherwise, absX is the absolute value, t the rational kernel and y the
polynomial-times-exponential approximation, exactly as in the source. -/
noncomputable def erf (x : ℝ) : ℝ :=
  let sign : ℝ := if 0 ≤ x then 1 else -1
  let absX := |x|
  let t := 1.0 / (1.0 + p * absX)
  let y := 1.0 - (((((a5 * t + a4) * t) + a3) * t + a2) * t + a1) * t *
    Real.exp (-absX * absX)
  sign * y

/-- Embedding of chiSquareCdf (lines 31-34): zero for negative inputs,
otherwise erf of the square root of half the statistic. -/
noncomputable def chiSquareCdf (chiSquared : ℝ) : ℝ :=
  if chiSquared < 0 then 0 else erf (Real.sqrt (chiSquared / 2))

/-! ## The pair-counting loops (lines 59-81)

The two loops run i = 0, 8, 16, ... while i < length - 4 and read the
bytes at i and i + 4. We embed the iteration domain as a filtered range
and each iteration through the pair of bytes it reads. -/

/-- Loop start indices of the two counting loops of analyzeLSB: the
multiples of 8 that satisfy the bound i < L - 4 of the for-loops
(over the integers this bound is i + 4 < L). -/
def pairStarts (L : ℕ) : List ℕ :=
  (List.range L).filter (fun i => decide (i % 8 = 0) && decide (i + 4 < L))

/-- The pairs (p_i, p_i_plus_1) examined by the loops: the byte at each
loop start index together with the byte four positions later. -/
def examinedPairs (buf : List ℕ) : List (ℕ × ℕ) :=
  (pairStarts buf.length).map (fun i => (buf.getD i 0, buf.getD (i + 4) 0))

/-- The observedFrequencies histogram, as a function of the scanned
pairs: category v counts the pairs whose first byte is v, is strictly
between 0 and 255, and is exceeded by the second byte (lines 59-72). -/
def observedFrequenciesOfPairs (ps : List (ℕ × ℕ)) (v : ℕ) : ℕ :=
  ps.countP (fun q =>
    decide (q.1 < 255) && decide (0 < q.1) && decide (q.1 < q.2) && decide (q.1 = v))

/-- The totalPairsPerCategory histogram, as a function of the scanned
pairs: category v counts the pairs whose first byte is v and is strictly
between 0 and 255 (lines 75-81). -/
def totalPairsOfPairs (ps : List (ℕ × ℕ)) (v : ℕ) : ℕ :=
  ps.countP (fun q =>
    decide (q.1 < 255) && decide (0 < q.1) && decide (q.1 = v))

/-- observedFrequencies of the first counting loop of analyzeLSB. -/
def observedFrequencies (buf : List ℕ) : ℕ → ℕ :=
  observedFrequenciesOfPairs (examinedPairs buf)

/-- totalPairsPerCategory of the second counting loop of analyzeLSB. -/
def totalPairsPerCategory (buf : List ℕ) : ℕ → ℕ :=
  totalPairsOfPairs (examinedPairs buf)

/-! ## The chi-square estimator (lines 83-124) -/

/-- The chi-square statistic (lines 83-101): for i = 1 to 254, when the
category has pairs, add (observed - expected) squared over expected with
expected equal to half the total. Exact rational arithmetic. -/
def chiSquared (o T : ℕ → ℕ) : ℚ :=
  ((List.range' 1 254).map (fun i =>
    if 0 < T i then ((o i : ℚ) - (T i : ℚ) / 2) ^ 2 / ((T i : ℚ) / 2) else 0)).sum

/-- The degrees of freedom (line 113): the number of indices of the
255-entry observedFrequencies array whose category has at least one
pair. -/
def degreesOfFreedom (T : ℕ → ℕ) : ℕ :=
  ((List.range 255).filter (fun i => decide (0 < T i))).length

/-- Lines 113-124 of analyzeLSB applied to a pair of histograms: zero
when there are no degrees of freedom, otherwise the chi-square CDF of
the statistic divided by the degrees of freedom. -/
noncomputable def probabilityOf (o T : ℕ → ℕ) : ℝ :=
  if degreesOfFreedom T = 0 then 0
  else chiSquareCdf ((chiSquared o T : ℝ) / (degreesOfFreedom T : ℝ))

/-- Embedding of analyzeLSB (lines 53-125): build the two histograms
from the pixel buffer and reduce them to a probability. -/
noncomputable def analyzeLSB (buf : List ℕ) : ℝ :=
  probabilityOf (observedFrequencies buf) (totalPairsPerCategory buf)

/-! ## The classifier (src/App.tsx, lines 73-82) -/

/-- Embedding of the status bands of handleAnalyzeClick: Suspicious
above 0.95, Indeterminate above 0.10, Clean otherwise. -/
noncomputable def classify (probability : ℝ) : ResultStatus :=
  if 0.95 < probability then ResultStatus.Suspicious
  else if 0.10 < probability then ResultStatus.Indeterminate
  else ResultStatus.Clean

/-! ## Checked-access variant (for the safety claim)

Every buffer read of the loops is replayed through the partial list
lookup; a read outside the buffer would surface as none. -/

/-- Read the two bytes of each examined pair through the bounds-checked
lookup, failing if any index is out of range. -/
def checkedPairs (buf : List ℕ) : List ℕ → Option (List (ℕ × ℕ))
  | [] => some []
  | i :: rest =>
    match buf[i]?, buf[i + 4]?, checkedPairs buf rest with
    | some a, some b, some ps => some ((a, b) :: ps)
    | _, _, _ => none

/-- The examined pairs of analyzeLSB with every buffer access checked. -/
def examinedPairsChecked (buf : List ℕ) : Option (List (ℕ × ℕ)) :=
  checkedPairs buf (pairStarts buf.length)

/-- analyzeLSB with every buffer access checked: none would indicate an
out-of-bounds read. -/
noncomputable def analyzeLSBChecked (buf : List ℕ) : Option ℝ :=
  (examinedPairsChecked buf).map (fun ps =>
    probabilityOf (observedFrequenciesOfPairs ps) (totalPairsOfPairs ps))

/-! ## The spec-worded pairing (for the pair-stride claim)

Modelled from the spec: the spec describes the two members of every pair
as the selected channel of pixel k and the selected channel of pixel
k + 2, that is the bytes at i and i + 8. This definition follows the
words of that claim, to be compared with examinedPairs above. -/

/-- The pairs the pair-stride claim describes: byte at each loop start
index together with the byte eight positions (two pixel groups) later. -/
def specClaimedPairs (buf : List ℕ) : List (ℕ × ℕ) :=
  (pairStarts buf.length).map (fun i => (buf.getD i 0, buf.getD (i + 8) 0))

/-- The polynomial factor of the erf approximation, as a function of the
rational kernel t. -/
def erfPoly (t : ℝ) : ℝ :=
  (((((a5 * t + a4) * t) + a3) * t + a2) * t + a1) * t

/-- The derivative polynomial of erfPoly, used to certify monotonicity. -/
def erfPolyDeriv (u : ℝ) : ℝ :=
  a1 + 2 * a2 * u + 3 * a3 * u ^ 2 + 4 * a4 * u ^ 3 + 5 * a5 * u ^ 4

/-- The second-order coefficient polynomial arising in the symmetric
decomposition of a difference of erfPoly values. -/
def erfPolyCurv (u : ℝ) : ℝ :=
  a3 + 4 * a4 * u + 10 * a5 * u ^ 2

/-! ## Helper lemmas on the pair-counting loops -/

/-- Characterization of the loop start indices. -/
theorem mem_pairStarts {L i : ℕ} : i ∈ pairStarts L ↔ i % 8 = 0 ∧ i + 4 < L := by
  simp only [pairStarts, List.mem_filter, List.mem_range, Bool.and_eq_true,
    decide_eq_true_eq]
  omega

/-- With fewer than five bytes the loops do not run. -/
theorem pairStarts_eq_nil {L : ℕ} (h : L < 5) : pairStarts L = [] := by
  apply List.filter_eq_nil_iff.mpr
  intro i _
  simp only [Bool.and_eq_true, decide_eq_true_eq]
  omega

/-- A buffer shorter than four bytes leaves every category of the
total-pairs histogram empty. -/
theorem totalPairs_of_short {buf : List ℕ} (h : buf.length < 4) (v : ℕ) :
    totalPairsPerCategory buf v = 0 := by
  unfold totalPairsPerCategory totalPairsOfPairs examinedPairs
  rw [pairStarts_eq_nil (by omega)]
  rfl

/-- An everywhere-empty total-pairs histogram has no degrees of freedom. -/
theorem degreesOfFreedom_eq_zero {T : ℕ → ℕ} (h : ∀ v, T v = 0) :
    degreesOfFreedom T = 0 := by
  unfold degreesOfFreedom
  have hnil : (List.range 255).filter (fun i => decide (0 < T i)) = [] := by
    apply List.filter_eq_nil_iff.mpr
    intro i _
    simp [h i]
  rw [hnil]
  rfl

/-- When there are no degrees of freedom, analyzeLSB returns zero. -/
theorem analyzeLSB_of_df_zero {buf : List ℕ}
    (h : degreesOfFreedom (totalPairsPerCategory buf) = 0) : analyzeLSB buf = 0 := by
  simp only [analyzeLSB, probabilityOf, if_pos h]

/-- The classifier calls probability zero Clean. -/
theorem classify_zero : classify 0 = ResultStatus.Clean := by
  norm_num [classify]

/-- All checked lookups succeed on the loop domain and agree with the
total lookups. -/
theorem checkedPairs_eq_some (buf : List ℕ) :
    ∀ l : List ℕ, (∀ i ∈ l, i + 4 < buf.length) →
      checkedPairs buf l = some (l.map (fun i => (buf.getD i 0, buf.getD (i + 4) 0)))
  | [], _ => rfl
  | i :: rest, h => by
    have hi4 : i + 4 < buf.length := h i (List.mem_cons_self i rest)
    have hi : i < buf.length := by omega
    have e1 : buf[i]? = some (buf.getD i 0) := by
      rw [List.getElem?_eq_getElem hi, List.getD_eq_getElem buf 0 hi]
    have e2 : buf[i + 4]? = some (buf.getD (i + 4) 0) := by
      rw [List.getElem?_eq_getElem hi4, List.getD_eq_getElem buf 0 hi4]
    have ih := checkedPairs_eq_some buf rest (fun j hj => h j (List.mem_cons_of_mem i hj))
    unfold checkedPairs
    rw [e1, e2, ih]
    rfl

/-! ## Claim C2 -/

/-- Claim C2 is false as stated: on the concrete twelve-byte buffer the
single examined pair is the selected channels of pixels 0 and 1, values
(1, 2), which differs from the spec-worded pixel-k-to-pixel-k-plus-2
pairing, and no k at all pairs the values (1, 2) at distance two
groups. -/
theorem C2_counterexample :
    examinedPairs [1,0,0,0,2,0,0,0,3,0,0,0] ≠ specClaimedPairs [1,0,0,0,2,0,0,0,3,0,0,0] ∧
    (1, 2) ∈ examinedPairs [1,0,0,0,2,0,0,0,3,0,0,0] ∧
    ∀ k : ℕ, (([1,0,0,0,2,0,0,0,3,0,0,0] : List ℕ).getD (4 * k) 0,
        ([1,0,0,0,2,0,0,0,3,0,0,0] : List ℕ).getD (4 * (k + 2)) 0) ≠ ((1 : ℕ), (2 : ℕ)) := by
  refine ⟨by decide, by decide, ?_⟩
  intro k
  match k with
  | 0 => decide
  | 1 => decide
  | 2 => decide
  | n + 3 =>
    have hlen : ([1,0,0,0,2,0,0,0,3,0,0,0] : List ℕ).length = 12 := rfl
    have h0 : ([1,0,0,0,2,0,0,0,3,0,0,0] : List ℕ).getD (4 * (n + 3)) 0 = 0 :=
      List.getD_eq_default _ _ (by rw [hlen]; omega)
    simp only [ne_eq, Prod.mk.injEq, not_and]
    intro h1
    rw [h0] at h1
    exact absurd h1 (by omega)

/-- Claim C2 (amended): every pair examined by the loops consists of the
selected channel of an even pixel k and the selected channel of pixel
k + 1 (bytes i and i + 4); the skipping happens between consecutive
pairs, whose start bytes are eight apart. -/
theorem C2_pair_members :
    (∀ (buf : List ℕ) (q : ℕ × ℕ), q ∈ examinedPairs buf →
      ∃ k : ℕ, k % 2 = 0 ∧ 4 * k + 4 < buf.length ∧
        q = (buf.getD (4 * k) 0, buf.getD (4 * k + 4) 0)) ∧
    (∀ L i : ℕ, i ∈ pairStarts L ↔ i % 8 = 0 ∧ i + 4 < L) := by
  constructor
  · intro buf q hq
    simp only [examinedPairs, List.mem_map] at hq
    obtain ⟨i, hi, rfl⟩ := hq
    rw [mem_pairStarts] at hi
    refine ⟨i / 4, by omega, by omega, ?_⟩
    have h4 : 4 * (i / 4) = i := by omega
    rw [h4]
  · intro L i
    exact mem_pairStarts

/-- Witness for the amended claim C2 at a concrete buffer and pair. -/
theorem C2_pair_members_witness :
    (1, 2) ∈ examinedPairs [1,0,0,0,2,0,0,0,3,0,0,0] ∧
    ∃ k : ℕ, k % 2 = 0 ∧ 4 * k + 4 < ([1,0,0,0,2,0,0,0,3,0,0,0] : List ℕ).length ∧
      ((1 : ℕ), (2 : ℕ)) = (([1,0,0,0,2,0,0,0,3,0,0,0] : List ℕ).getD (4 * k) 0,
        ([1,0,0,0,2,0,0,0,3,0,0,0] : List ℕ).getD (4 * k + 4) 0) :=
  ⟨by decide, C2_pair_members.1 [1,0,0,0,2,0,0,0,3,0,0,0] (1, 2) (by decide)⟩

/-! ## Claim C3 -/

/-- Claim C3: the classifier bands are Suspicious strictly above 0.95,
Indeterminate strictly above 0.10 up to and including 0.95, Clean up to
and including 0.10; the two boundary probabilities land in the lower
band. -/
theorem C3_classifier_bands :
    (∀ prob : ℝ,
      (classify prob = ResultStatus.Suspicious ↔ 0.95 < prob) ∧
      (classify prob = ResultStatus.Indeterminate ↔ 0.10 < prob ∧ prob ≤ 0.95) ∧
      (classify prob = ResultStatus.Clean ↔ prob ≤ 0.10)) ∧
    classify 0.95 = ResultStatus.Indeterminate ∧
    classify 0.10 = ResultStatus.Clean := by
  refine ⟨?_, by norm_num [classify], by norm_num [classify]⟩
  intro prob
  by_cases h1 : (0.95 : ℝ) < prob
  · have h2 : (0.10 : ℝ) < prob := lt_trans (by norm_num) h1
    unfold classify
    rw [if_pos h1]
    refine ⟨⟨fun _ => h1, fun _ => rfl⟩, ?_, ?_⟩
    · exact ⟨fun h => ResultStatus.noConfusion h,
        fun h => absurd h1 (not_lt.mpr h.2)⟩
    · exact ⟨fun h => ResultStatus.noConfusion h,
        fun h => absurd h2 (not_lt.mpr h)⟩
  · by_cases h2 : (0.10 : ℝ) < prob
    · unfold classify
      rw [if_neg h1, if_pos h2]
      refine ⟨⟨fun h => ResultStatus.noConfusion h, fun h => absurd h h1⟩, ?_, ?_⟩
      · exact ⟨fun _ => ⟨h2, not_lt.mp h1⟩, fun _ => rfl⟩
      · exact ⟨fun h => ResultStatus.noConfusion h,
          fun h => absurd h2 (not_lt.mpr h)⟩
    · unfold classify
      rw [if_neg h1, if_neg h2]
      refine ⟨?_, ?_, ⟨fun _ => not_lt.mp h2, fun _ => rfl⟩⟩
      · exact ⟨fun h => ResultStatus.noConfusion h,
          fun h => absurd (lt_trans (by norm_num) h) h2⟩
      · exact ⟨fun h => ResultStatus.noConfusion h, fun h => absurd h.1 h2⟩

/-! ## Claim C5 -/

/-- Claim C5 is false as stated: category 254 is reachable, because the
guard excludes only the byte value 255; the buffer with selected bytes
254 and 255 increments both histograms at index 254. -/
theorem C5_counterexample :
    totalPairsPerCategory [254,0,0,0,255,0,0,0] 254 = 1 ∧
    observedFrequencies [254,0,0,0,255,0,0,0] 254 = 1 := by
  decide

/-- Claim C5 (amended): index 0 of both histograms is never incremented,
because the guard requires a strictly positive predecessor byte; index
254 however is reachable, since the guard excludes only predecessor
value 255. -/
theorem C5_boundary_categories :
    (∀ buf : List ℕ, observedFrequencies buf 0 = 0 ∧ totalPairsPerCategory buf 0 = 0) ∧
    0 < totalPairsPerCategory [254,0,0,0,255,0,0,0] 254 := by
  refine ⟨?_, by decide⟩
  intro buf
  constructor
  · simp only [observedFrequencies, observedFrequenciesOfPairs]
    apply List.countP_eq_zero.mpr
    intro q _
    simp only [Bool.and_eq_true, decide_eq_true_eq]
    omega
  · simp only [totalPairsPerCategory, totalPairsOfPairs]
    apply List.countP_eq_zero.mpr
    intro q _
    simp only [Bool.and_eq_true, decide_eq_true_eq]
    omega

/-! ## Claim C6 -/

/-- Claim C6: with zero populated categories analyzeLSB returns exactly
zero and the classifier reports Clean; in particular any buffer shorter
than four bytes has no populated category and is classified Clean. -/
theorem C6_degenerate (buf : List ℕ) :
    (degreesOfFreedom (totalPairsPerCategory buf) = 0 →
      analyzeLSB buf = 0 ∧ classify (analyzeLSB buf) = ResultStatus.Clean) ∧
    (buf.length < 4 →
      degreesOfFreedom (totalPairsPerCategory buf) = 0 ∧
      analyzeLSB buf = 0 ∧ classify (analyzeLSB buf) = ResultStatus.Clean) := by
  have main : degreesOfFreedom (totalPairsPerCategory buf) = 0 →
      analyzeLSB buf = 0 ∧ classify (analyzeLSB buf) = ResultStatus.Clean := by
    intro h
    have h0 : analyzeLSB buf = 0 := analyzeLSB_of_df_zero h
    exact ⟨h0, by rw [h0, classify_zero]⟩
  refine ⟨main, fun hshort => ?_⟩
  have hdf : degreesOfFreedom (totalPairsPerCategory buf) = 0 :=
    degreesOfFreedom_eq_zero (totalPairs_of_short hshort)
  exact ⟨hdf, main hdf⟩

/-- Witness for claim C6 at the empty buffer. -/
theorem C6_degenerate_witness :
    degreesOfFreedom (totalPairsPerCategory []) = 0 ∧
    analyzeLSB [] = 0 ∧ classify (analyzeLSB []) = ResultStatus.Clean :=
  ⟨by decide, (C6_degenerate []).1 (by decide)⟩

/-! ## Claim C9 -/

/-- Claim C9: analyzeLSB reads only the first channel of each group; two
equal-length buffers that agree on every byte at an index divisible by
four receive the same probability. -/
theorem C9_red_channel_only (buf1 buf2 : List ℕ)
    (hlen : buf1.length = buf2.length)
    (hred : ∀ i, i < buf1.length → i % 4 = 0 → buf1.getD i 0 = buf2.getD i 0) :
    analyzeLSB buf1 = analyzeLSB buf2 := by
  have hpairs : examinedPairs buf1 = examinedPairs buf2 := by
    unfold examinedPairs
    rw [hlen]
    apply List.map_congr_left
    intro i hi
    rw [mem_pairStarts] at hi
    have h1 : buf1.getD i 0 = buf2.getD i 0 := hred i (by omega) (by omega)
    have h2 : buf1.getD (i + 4) 0 = buf2.getD (i + 4) 0 := hred (i + 4) (by omega) (by omega)
    rw [h1, h2]
  unfold analyzeLSB observedFrequencies totalPairsPerCategory
  rw [hpairs]

/-- Witness for claim C9: two buffers differing in all three non-red
channels get the same probability. -/
theorem C9_red_channel_only_witness :
    ([1,2,3,4,5,6,7,8] : List ℕ).length = ([1,9,9,9,5,9,9,9] : List ℕ).length ∧
    (∀ i, i < ([1,2,3,4,5,6,7,8] : List ℕ).length → i % 4 = 0 →
      ([1,2,3,4,5,6,7,8] : List ℕ).getD i 0 = ([1,9,9,9,5,9,9,9] : List ℕ).getD i 0) ∧
    analyzeLSB [1,2,3,4,5,6,7,8] = analyzeLSB [1,9,9,9,5,9,9,9] :=
  ⟨rfl, by decide, C9_red_channel_only _ _ rfl (by decide)⟩

/-! ## Analysis of the erf approximation -/

/-- The derivative polynomial is globally non-negative: its quartic and
quadratic parts each have negative discriminant. -/
theorem erfPolyDeriv_nonneg (u : ℝ) : 0 ≤ erfPolyDeriv u := by
  simp only [erfPolyDeriv, a1, a2, a3, a4, a5]
  nlinarith [mul_nonneg (sq_nonneg u) (sq_nonneg (10.61405429 * u - 5.812608108)),
    sq_nonneg (2.664241223 * u - 0.284496736), sq_nonneg u]

/-- The curvature polynomial is globally non-negative: a positive
leading coefficient and a negative discriminant. -/
theorem erfPolyCurv_nonneg (u : ℝ) : 0 ≤ erfPolyCurv u := by
  simp only [erfPolyCurv, a3, a4, a5]
  nlinarith [sq_nonneg (21.22810858 * u - 5.812608108)]

/-- Symmetric decomposition of a difference of erfPoly values through
the midpoint and half-difference of the arguments. -/
theorem erfPoly_sub (s t : ℝ) :
    erfPoly t - erfPoly s =
      (t - s) * (erfPolyDeriv ((t + s) / 2) +
        ((t - s) / 2) ^ 2 * erfPolyCurv ((t + s) / 2) + a5 * ((t - s) / 2) ^ 4) := by
  simp only [erfPoly, erfPolyDeriv, erfPolyCurv]
  ring

/-- erfPoly is monotone non-decreasing on the whole real line. -/
theorem erfPoly_mono {s t : ℝ} (hst : s ≤ t) : erfPoly s ≤ erfPoly t := by
  have key := erfPoly_sub s t
  have h1 := erfPolyDeriv_nonneg ((t + s) / 2)
  have h2 := erfPolyCurv_nonneg ((t + s) / 2)
  have h3 : (0 : ℝ) ≤ a5 := by norm_num [a5]
  have h4 : 0 ≤ ((t - s) / 2) ^ 2 := sq_nonneg _
  have h5 : 0 ≤ ((t - s) / 2) ^ 4 :=
    pow_nonneg (by linarith [sub_nonneg.mpr hst] : (0 : ℝ) ≤ (t - s) / 2) 4
  have hsum : 0 ≤ erfPolyDeriv ((t + s) / 2) +
      ((t - s) / 2) ^ 2 * erfPolyCurv ((t + s) / 2) + a5 * ((t - s) / 2) ^ 4 :=
    add_nonneg (add_nonneg h1 (mul_nonneg h4 h2)) (mul_nonneg h3 h5)
  nlinarith [mul_nonneg (sub_nonneg.mpr hst) hsum]

/-- erfPoly vanishes at zero. -/
theorem erfPoly_zero : erfPoly 0 = 0 := by
  simp [erfPoly]

/-- The exact rational value of erfPoly at one: the sum of the five
coefficients, one billionth below one. -/
theorem erfPoly_one : erfPoly 1 = 0.999999999 := by
  norm_num [erfPoly, a1, a2, a3, a4, a5]

/-- erfPoly is non-negative at non-negative arguments. -/
theorem erfPoly_nonneg {t : ℝ} (ht : 0 ≤ t) : 0 ≤ erfPoly t := by
  have := erfPoly_mono ht
  rw [erfPoly_zero] at this
  exact this

/-- erfPoly stays below one up to argument one. -/
theorem erfPoly_le_one {t : ℝ} (ht : t ≤ 1) : erfPoly t ≤ 1 := by
  have := erfPoly_mono ht
  rw [erfPoly_one] at this
  linarith

/-- The denominator of the rational kernel is positive for non-negative
arguments. -/
theorem one_add_p_mul_pos {x : ℝ} (hx : 0 ≤ x) : 0 < 1 + p * x := by
  have hp : (0 : ℝ) ≤ p := by norm_num [p]
  nlinarith [mul_nonneg hp hx]

/-- The rational kernel lies in the unit interval for non-negative
arguments. -/
theorem kernel_mem {x : ℝ} (hx : 0 ≤ x) :
    0 ≤ 1 / (1 + p * x) ∧ 1 / (1 + p * x) ≤ 1 := by
  have hpos := one_add_p_mul_pos hx
  have hp : (0 : ℝ) ≤ p := by norm_num [p]
  constructor
  · positivity
  · rw [div_le_one hpos]
    nlinarith [mul_nonneg hp hx]

/-- Closed form of erf on non-negative arguments: one minus the
polynomial factor at the kernel times the Gaussian factor. -/
theorem erf_eq_of_nonneg {x : ℝ} (hx : 0 ≤ x) :
    erf x = 1 - erfPoly (1 / (1 + p * x)) * Real.exp (-(x * x)) := by
  simp only [erf, erfPoly, abs_of_nonneg hx, if_pos hx]
  norm_num

/-- erf is bounded by the unit interval on non-negative arguments. -/
theorem erf_mem_unit {x : ℝ} (hx : 0 ≤ x) : 0 ≤ erf x ∧ erf x ≤ 1 := by
  obtain ⟨ht0, ht1⟩ := kernel_mem hx
  have hP0 : 0 ≤ erfPoly (1 / (1 + p * x)) := erfPoly_nonneg ht0
  have hP1 : erfPoly (1 / (1 + p * x)) ≤ 1 := erfPoly_le_one ht1
  have hE0 : 0 < Real.exp (-(x * x)) := Real.exp_pos _
  have hE1 : Real.exp (-(x * x)) ≤ 1 :=
    Real.exp_le_one_iff.mpr (by nlinarith [mul_self_nonneg x])
  rw [erf_eq_of_nonneg hx]
  constructor
  · have : erfPoly (1 / (1 + p * x)) * Real.exp (-(x * x)) ≤ 1 :=
      mul_le_one₀ hP1 hE0.le hE1
    linarith
  · have : 0 ≤ erfPoly (1 / (1 + p * x)) * Real.exp (-(x * x)) :=
      mul_nonneg hP0 hE0.le
    linarith

/-- erf is monotone non-decreasing on the non-negative half line. -/
theorem erf_mono {x y : ℝ} (hx : 0 ≤ x) (hxy : x ≤ y) : erf x ≤ erf y := by
  have hy : 0 ≤ y := le_trans hx hxy
  have hp : (0 : ℝ) ≤ p := by norm_num [p]
  have hker : 1 / (1 + p * y) ≤ 1 / (1 + p * x) :=
    one_div_le_one_div_of_le (one_add_p_mul_pos hx)
      (by nlinarith [mul_le_mul_of_nonneg_left hxy hp])
  have hPy0 : 0 ≤ erfPoly (1 / (1 + p * y)) := erfPoly_nonneg (kernel_mem hy).1
  have hPx0 : 0 ≤ erfPoly (1 / (1 + p * x)) := erfPoly_nonneg (kernel_mem hx).1
  have hPle : erfPoly (1 / (1 + p * y)) ≤ erfPoly (1 / (1 + p * x)) := erfPoly_mono hker
  have hEle : Real.exp (-(y * y)) ≤ Real.exp (-(x * x)) :=
    Real.exp_le_exp.mpr (by nlinarith [mul_self_le_mul_self hx hxy])
  have hmul : erfPoly (1 / (1 + p * y)) * Real.exp (-(y * y)) ≤
      erfPoly (1 / (1 + p * x)) * Real.exp (-(x * x)) :=
    mul_le_mul hPle hEle (Real.exp_pos _).le hPx0
  rw [erf_eq_of_nonneg hx, erf_eq_of_nonneg hy]
  linarith

/-- The Gaussian factor at one half is at most four fifths. -/
theorem exp_neg_quarter_le : Real.exp (-(1 / 4) : ℝ) ≤ 4 / 5 := by
  have h : (5 / 4 : ℝ) ≤ Real.exp (1 / 4) := by
    have := Real.add_one_le_exp (1 / 4 : ℝ)
    linarith
  rw [Real.exp_neg]
  calc (Real.exp (1 / 4 : ℝ))⁻¹ ≤ (5 / 4 : ℝ)⁻¹ := inv_anti₀ (by norm_num) h
    _ = 4 / 5 := by norm_num

/-- erf at one half is at least one fifth. -/
theorem erf_half_lb : (1 / 5 : ℝ) ≤ erf (1 / 2) := by
  have hx : (0 : ℝ) ≤ 1 / 2 := by norm_num
  obtain ⟨ht0, ht1⟩ := kernel_mem hx
  have hP1 : erfPoly (1 / (1 + p * (1 / 2))) ≤ 1 := erfPoly_le_one ht1
  have hP0 : 0 ≤ erfPoly (1 / (1 + p * (1 / 2))) := erfPoly_nonneg ht0
  have hE : Real.exp (-(1 / 2 * (1 / 2)) : ℝ) ≤ 4 / 5 := by
    have : (-(1 / 2 * (1 / 2)) : ℝ) = -(1 / 4) := by norm_num
    rw [this]
    exact exp_neg_quarter_le
  have hmul : erfPoly (1 / (1 + p * (1 / 2))) * Real.exp (-(1 / 2 * (1 / 2)) : ℝ) ≤ 4 / 5 :=
    calc erfPoly (1 / (1 + p * (1 / 2))) * Real.exp (-(1 / 2 * (1 / 2)) : ℝ)
        ≤ 1 * Real.exp (-(1 / 2 * (1 / 2)) : ℝ) :=
          mul_le_mul_of_nonneg_right hP1 (Real.exp_pos _).le
      _ = Real.exp (-(1 / 2 * (1 / 2)) : ℝ) := one_mul _
      _ ≤ 4 / 5 := hE
  rw [erf_eq_of_nonneg hx]
  linarith

/-- The chi-square CDF always lands in the unit interval. -/
theorem chiSquareCdf_mem_unit (c : ℝ) : 0 ≤ chiSquareCdf c ∧ chiSquareCdf c ≤ 1 := by
  unfold chiSquareCdf
  by_cases h : c < 0
  · rw [if_pos h]
    norm_num
  · rw [if_neg h]
    exact erf_mem_unit (Real.sqrt_nonneg _)

/-- The chi-square CDF is monotone on non-negative statistics. -/
theorem chiSquareCdf_mono {c d : ℝ} (hc : 0 ≤ c) (hcd : c ≤ d) :
    chiSquareCdf c ≤ chiSquareCdf d := by
  unfold chiSquareCdf
  rw [if_neg (not_lt.mpr hc), if_neg (not_lt.mpr (le_trans hc hcd))]
  exact erf_mono (Real.sqrt_nonneg _) (Real.sqrt_le_sqrt (by linarith))

/-! ## Claim C7 -/

/-- Claim C7: the probability analyzeLSB returns always lies in the unit
interval, and so does the chi-square CDF approximation at every real
statistic. -/
theorem C7_probability_in_unit_interval :
    (∀ buf : List ℕ, 0 ≤ analyzeLSB buf ∧ analyzeLSB buf ≤ 1) ∧
    (∀ c : ℝ, 0 ≤ chiSquareCdf c ∧ chiSquareCdf c ≤ 1) := by
  refine ⟨?_, chiSquareCdf_mem_unit⟩
  intro buf
  unfold analyzeLSB probabilityOf
  by_cases h : degreesOfFreedom (totalPairsPerCategory buf) = 0
  · rw [if_pos h]
    norm_num
  · rw [if_neg h]
    exact chiSquareCdf_mem_unit _

/-! ## Claim C8 -/

/-- Claim C8 is false as stated: at zero the approximation returns
exactly one billionth, the rounding gap of the five coefficients, so
erf(0) is not 0 and the odd-symmetry identity fails at x = 0. -/
theorem C8_counterexample :
    erf 0 = 1 / 1000000000 ∧ erf (-0) ≠ -erf 0 := by
  have h : erf (0 : ℝ) = 1 / 1000000000 := by
    have h0 : erf (0 : ℝ) = 1 - erfPoly (1 / (1 + p * 0)) * Real.exp (-(0 * 0)) :=
      erf_eq_of_nonneg le_rfl
    rw [h0]
    have h1 : (1 : ℝ) / (1 + p * 0) = 1 := by norm_num [p]
    have h2 : (-(0 * 0) : ℝ) = 0 := by norm_num
    rw [h1, h2, Real.exp_zero, erfPoly_one]
    norm_num
  refine ⟨h, ?_⟩
  rw [neg_zero, h]
  norm_num

/-- Claim C8 (amended): the approximation is odd away from zero, where
the sign flip and the absolute value cancel exactly; at zero itself it
returns one billionth rather than zero. -/
theorem C8_odd_away_from_zero :
    (∀ x : ℝ, x ≠ 0 → erf (-x) = -erf x) ∧ erf 0 = 1 / 1000000000 := by
  constructor
  · intro x hx
    rcases hx.lt_or_lt with hneg | hpos
    · simp only [erf]
      rw [if_pos (by linarith : (0 : ℝ) ≤ -x), if_neg (by linarith : ¬(0 : ℝ) ≤ x), abs_neg]
      ring
    · simp only [erf]
      rw [if_neg (by linarith : ¬(0 : ℝ) ≤ -x), if_pos (by linarith : (0 : ℝ) ≤ x), abs_neg]
      ring
  · have h0 : erf (0 : ℝ) = 1 - erfPoly (1 / (1 + p * 0)) * Real.exp (-(0 * 0)) :=
      erf_eq_of_nonneg le_rfl
    rw [h0]
    have h1 : (1 : ℝ) / (1 + p * 0) = 1 := by norm_num [p]
    have h2 : (-(0 * 0) : ℝ) = 0 := by norm_num
    rw [h1, h2, Real.exp_zero, erfPoly_one]
    norm_num

/-- Witness for the amended claim C8 at the concrete argument one. -/
theorem C8_odd_away_from_zero_witness :
    (1 : ℝ) ≠ 0 ∧ erf (-1) = -erf 1 :=
  ⟨one_ne_zero, C8_odd_away_from_zero.1 1 one_ne_zero⟩

/-! ## Claim C10 -/

/-- Claim C10: analyzeLSB is total; replaying every buffer access of the
loops through the bounds-checked lookup never fails, and the checked
computation returns exactly the probability of the total one, for every
buffer length. -/
theorem C10_total (buf : List ℕ) : analyzeLSBChecked buf = some (analyzeLSB buf) := by
  have h : examinedPairsChecked buf = some (examinedPairs buf) := by
    unfold examinedPairsChecked examinedPairs
    apply checkedPairs_eq_some
    intro i hi
    exact (mem_pairStarts.mp hi).2
  unfold analyzeLSBChecked
  rw [h]
  rfl

/-! ## Claim C4 -/

/-- Every term of the chi-square sum is non-negative. -/
theorem chiSquared_term_nonneg (o T : ℕ → ℕ) (i : ℕ) :
    0 ≤ (if 0 < T i then ((o i : ℚ) - (T i : ℚ) / 2) ^ 2 / ((T i : ℚ) / 2) else 0) := by
  by_cases hT : 0 < T i
  · rw [if_pos hT]
    apply div_nonneg (sq_nonneg _)
    have : (0 : ℚ) < (T i : ℚ) := by exact_mod_cast hT
    linarith
  · rw [if_neg hT]

/-- The chi-square statistic is non-negative. -/
theorem chiSquared_nonneg (o T : ℕ → ℕ) : 0 ≤ chiSquared o T := by
  unfold chiSquared
  apply List.sum_nonneg
  intro x hx
  obtain ⟨i, _, rfl⟩ := List.mem_map.mp hx
  exact chiSquared_term_nonneg o T i

/-- Claim C4: with identical total-pairs histograms, an observed
histogram pointwise at least as far from half the total as another
yields at least as large a probability; the estimator is monotone in
the deviation and hence in the normalized statistic. -/
theorem C4_monotonicity (o1 o2 T : ℕ → ℕ)
    (h : ∀ i, |(o2 i : ℚ) - (T i : ℚ) / 2| ≤ |(o1 i : ℚ) - (T i : ℚ) / 2|) :
    probabilityOf o2 T ≤ probabilityOf o1 T := by
  unfold probabilityOf
  by_cases hdf : degreesOfFreedom T = 0
  · rw [if_pos hdf, if_pos hdf]
  · rw [if_neg hdf, if_neg hdf]
    have hchi_le : chiSquared o2 T ≤ chiSquared o1 T := by
      unfold chiSquared
      apply List.sum_le_sum
      intro i _
      by_cases hT : 0 < T i
      · rw [if_pos hT, if_pos hT]
        have hTpos : (0 : ℚ) < (T i : ℚ) / 2 := by
          have : (0 : ℚ) < (T i : ℚ) := by exact_mod_cast hT
          linarith
        apply (div_le_div_iff_of_pos_right hTpos).mpr
        rw [← sq_abs ((o2 i : ℚ) - (T i : ℚ) / 2), ← sq_abs ((o1 i : ℚ) - (T i : ℚ) / 2)]
        exact pow_le_pow_left₀ (abs_nonneg _) (h i) 2
      · rw [if_neg hT, if_neg hT]
    have hchi0 := chiSquared_nonneg o2 T
    have hdfpos : (0 : ℝ) < (degreesOfFreedom T : ℝ) := by
      exact_mod_cast Nat.pos_of_ne_zero hdf
    apply chiSquareCdf_mono
    · apply div_nonneg _ hdfpos.le
      exact_mod_cast hchi0
    · apply (div_le_div_iff_of_pos_right hdfpos).mpr
      exact_mod_cast hchi_le

/-- Witness for claim C4: the all-zero observed histogram (deviation
one) against the perfectly balanced one (deviation zero) on two pairs
in category one. -/
theorem C4_monotonicity_witness :
    (∀ i : ℕ, |((if i = 1 then 1 else 0 : ℕ) : ℚ) - ((if i = 1 then 2 else 0 : ℕ) : ℚ) / 2| ≤
      |((0 : ℕ) : ℚ) - ((if i = 1 then 2 else 0 : ℕ) : ℚ) / 2|) ∧
    probabilityOf (fun i => if i = 1 then 1 else 0) (fun i => if i = 1 then 2 else 0) ≤
      probabilityOf (fun _ => 0) (fun i => if i = 1 then 2 else 0) := by
  have hyp : ∀ i : ℕ,
      |((if i = 1 then 1 else 0 : ℕ) : ℚ) - ((if i = 1 then 2 else 0 : ℕ) : ℚ) / 2| ≤
      |((0 : ℕ) : ℚ) - ((if i = 1 then 2 else 0 : ℕ) : ℚ) / 2| := by
    intro i
    by_cases hi : i = 1
    · simp [hi]
    · simp [hi]
  exact ⟨hyp, C4_monotonicity (fun _ => 0) (fun i => if i = 1 then 1 else 0)
    (fun i => if i = 1 then 2 else 0) hyp⟩

/-! ## Claim C1 -/

/-- Summing a function that is zero away from a single member of a
duplicate-free list gives its value there. -/
theorem sum_map_single {l : List ℕ} {v : ℕ} {f : ℕ → ℚ} {x : ℚ}
    (hnd : l.Nodup) (hv : v ∈ l) (hf : ∀ c, f c = if c = v then x else 0) :
    (l.map f).sum = x := by
  induction l with
  | nil => cases hv
  | cons a l ih =>
    rw [List.nodup_cons] at hnd
    rcases List.mem_cons.mp hv with rfl | hvl
    · simp only [List.map_cons, List.sum_cons]
      have hz : (l.map f).sum = 0 := by
        apply List.sum_eq_zero
        intro y hy
        obtain ⟨c, hc, rfl⟩ := List.mem_map.mp hy
        rw [hf c, if_neg]
        intro hcv
        exact hnd.1 (hcv ▸ hc)
      rw [hz, hf v, if_pos rfl, add_zero]
    · have hav : a ≠ v := fun hh => hnd.1 (hh ▸ hvl)
      simp only [List.map_cons, List.sum_cons]
      rw [hf a, if_neg hav, zero_add]
      exact ih hnd.2 hvl

/-- Filtering a duplicate-free list by a predicate true at exactly one
member keeps exactly one element. -/
theorem length_filter_single {l : List ℕ} {v : ℕ} {q : ℕ → Bool}
    (hnd : l.Nodup) (hv : v ∈ l) (hq : ∀ c, q c = true ↔ c = v) :
    (l.filter q).length = 1 := by
  induction l with
  | nil => cases hv
  | cons a l ih =>
    rw [List.nodup_cons] at hnd
    rcases List.mem_cons.mp hv with rfl | hvl
    · rw [List.filter_cons_of_pos ((hq v).mpr rfl)]
      have hz : l.filter q = [] := by
        apply List.filter_eq_nil_iff.mpr
        intro c hc
        rw [hq c]
        exact fun hh => hnd.1 (hh ▸ hc)
      rw [hz]
      rfl
    · have hav : a ≠ v := fun hh => hnd.1 (hh ▸ hvl)
      rw [List.filter_cons_of_neg (by simp [hq a, hav])]
      exact ih hnd.2 hvl

/-- On a buffer whose selected-channel bytes all equal v, every
examined pair is (v, v). -/
theorem uniform_pairs (buf : List ℕ) (v : ℕ)
    (hbuf : ∀ i, i < buf.length → i % 4 = 0 → buf.getD i 0 = v) :
    ∀ q ∈ examinedPairs buf, q = (v, v) := by
  intro q hq
  obtain ⟨i, hi, rfl⟩ := List.mem_map.mp hq
  rw [mem_pairStarts] at hi
  have h1 : buf.getD i 0 = v := hbuf i (by omega) (by omega)
  have h2 : buf.getD (i + 4) 0 = v := hbuf (i + 4) (by omega) (by omega)
  rw [h1, h2]

/-- On a uniform buffer of value v, the total-pairs histogram is the
number of scanned pairs at category v and zero elsewhere. -/
theorem uniform_totalPairs (buf : List ℕ) (v : ℕ) (hv0 : 0 < v) (hv : v < 255)
    (hbuf : ∀ i, i < buf.length → i % 4 = 0 → buf.getD i 0 = v) :
    ∀ c, totalPairsPerCategory buf c =
      if c = v then (pairStarts buf.length).length else 0 := by
  intro c
  have hall := uniform_pairs buf v hbuf
  by_cases hc : c = v
  · subst hc
    rw [if_pos rfl]
    unfold totalPairsPerCategory totalPairsOfPairs
    rw [List.countP_eq_length.mpr ?_]
    · unfold examinedPairs
      exact List.length_map _ _
    · intro q hq
      rw [hall q hq]
      simp [hv0, hv]
  · rw [if_neg hc]
    unfold totalPairsPerCategory totalPairsOfPairs
    apply List.countP_eq_zero.mpr
    intro q hq
    rw [hall q hq]
    simp only [Bool.and_eq_true, decide_eq_true_eq]
    intro hcontra
    exact hc hcontra.2.symm

/-- On a uniform buffer the observed-greater histogram vanishes
everywhere: the second byte of every pair equals the first. -/
theorem uniform_observed (buf : List ℕ) (v : ℕ)
    (hbuf : ∀ i, i < buf.length → i % 4 = 0 → buf.getD i 0 = v) :
    ∀ c, observedFrequencies buf c = 0 := by
  intro c
  unfold observedFrequencies observedFrequenciesOfPairs
  apply List.countP_eq_zero.mpr
  intro q hq
  rw [uniform_pairs buf v hbuf q hq]
  simp only [Bool.and_eq_true, decide_eq_true_eq]
  intro hcontra
  exact absurd hcontra.1.1.2 (by omega)

/-- The closed form of analyzeLSB on a uniform buffer: with n scanned
pairs the probability is erf of the square root of n over four, and
zero when no pairs are scanned. -/
theorem analyzeLSB_uniform (buf : List ℕ) (v : ℕ) (hv0 : 0 < v) (hv : v < 255)
    (hbuf : ∀ i, i < buf.length → i % 4 = 0 → buf.getD i 0 = v) :
    (0 < (pairStarts buf.length).length →
      analyzeLSB buf = erf (Real.sqrt (((pairStarts buf.length).length : ℝ) / 4))) ∧
    ((pairStarts buf.length).length = 0 → analyzeLSB buf = 0) := by
  have hT := uniform_totalPairs buf v hv0 hv hbuf
  have hO := uniform_observed buf v hbuf
  constructor
  · intro hnpos
    have hdf : degreesOfFreedom (totalPairsPerCategory buf) = 1 := by
      unfold degreesOfFreedom
      apply length_filter_single (List.nodup_range 255) (List.mem_range.mpr hv)
      intro c
      rw [hT c]
      by_cases hc : c = v
      · subst hc
        rw [if_pos rfl]
        simp [hnpos]
      · rw [if_neg hc]
        simp [hc]
    have hchi : chiSquared (observedFrequencies buf) (totalPairsPerCategory buf) =
        ((pairStarts buf.length).length : ℚ) / 2 := by
      unfold chiSquared
      apply sum_map_single (List.nodup_range' 1 254) (List.mem_range'_1.mpr ⟨hv0, by omega⟩)
      intro c
      rw [hT c, hO c]
      by_cases hc : c = v
      · subst hc
        rw [if_pos rfl, if_pos rfl, if_pos hnpos]
        have hnq : (0 : ℚ) < ((pairStarts buf.length).length : ℚ) := by exact_mod_cast hnpos
        rw [Nat.cast_zero]
        field_simp
        ring
      · rw [if_neg hc, if_neg hc, if_neg (lt_irrefl 0)]
    unfold analyzeLSB probabilityOf
    rw [hdf, if_neg one_ne_zero, hchi]
    have hcast : ((((pairStarts buf.length).length : ℚ) / 2 : ℚ) : ℝ) / ((1 : ℕ) : ℝ) =
        ((pairStarts buf.length).length : ℝ) / 2 := by
      push_cast
      ring
    rw [hcast]
    unfold chiSquareCdf
    have hnr : (0 : ℝ) ≤ ((pairStarts buf.length).length : ℝ) / 2 := by positivity
    rw [if_neg (not_lt.mpr hnr), div_div]
    norm_num
  · intro hz
    apply analyzeLSB_of_df_zero
    apply degreesOfFreedom_eq_zero
    intro c
    rw [hT c]
    by_cases hc : c = v
    · subst hc
      rw [if_pos rfl]
      exact hz
    · rw [if_neg hc]

/-- A probability above one tenth is never classified Clean. -/
theorem classify_ne_clean {pr : ℝ} (h : 1 / 10 < pr) :
    classify pr ≠ ResultStatus.Clean := by
  unfold classify
  by_cases h1 : (0.95 : ℝ) < pr
  · rw [if_pos h1]
    exact fun hc => ResultStatus.noConfusion hc
  · rw [if_neg h1, if_pos (by rw [show (0.10 : ℝ) = 1 / 10 by norm_num]; exact h)]
    exact fun hc => ResultStatus.noConfusion hc

/-- On a uniform buffer with at least one scanned pair the probability
exceeds one tenth and the status is not Clean. -/
theorem uniform_not_clean (buf : List ℕ) (v : ℕ) (hv0 : 0 < v) (hv : v < 255)
    (hbuf : ∀ i, i < buf.length → i % 4 = 0 → buf.getD i 0 = v)
    (hnpos : 0 < (pairStarts buf.length).length) :
    1 / 10 < analyzeLSB buf ∧ classify (analyzeLSB buf) ≠ ResultStatus.Clean := by
  have hform := (analyzeLSB_uniform buf v hv0 hv hbuf).1 hnpos
  have h14 : (1 / 4 : ℝ) ≤ ((pairStarts buf.length).length : ℝ) / 4 := by
    have : (1 : ℝ) ≤ ((pairStarts buf.length).length : ℝ) := by exact_mod_cast hnpos
    linarith
  have hhalf : Real.sqrt (1 / 4 : ℝ) = 1 / 2 := by
    rw [show (1 / 4 : ℝ) = (1 / 2) ^ 2 by norm_num,
      Real.sqrt_sq (by norm_num : (0 : ℝ) ≤ 1 / 2)]
  have hmono : erf (1 / 2) ≤ erf (Real.sqrt (((pairStarts buf.length).length : ℝ) / 4)) := by
    rw [← hhalf]
    exact erf_mono (Real.sqrt_nonneg _) (Real.sqrt_le_sqrt h14)
  have hgt : (1 / 10 : ℝ) < analyzeLSB buf := by
    rw [hform]
    have := erf_half_lb
    linarith
  exact ⟨hgt, classify_ne_clean hgt⟩

/-- Claim C1 is false as stated: on the uniform buffer of selected value
one with one scanned pair, the probability exceeds one tenth (it is
erf of one half, about 0.52) and the classifier does not report Clean. -/
theorem C1_counterexample :
    (∀ i, i < ([1,0,0,0,1,0,0,0] : List ℕ).length → i % 4 = 0 →
      ([1,0,0,0,1,0,0,0] : List ℕ).getD i 0 = 1) ∧
    1 / 10 < analyzeLSB [1,0,0,0,1,0,0,0] ∧
    classify (analyzeLSB [1,0,0,0,1,0,0,0]) ≠ ResultStatus.Clean :=
  ⟨by decide, uniform_not_clean [1,0,0,0,1,0,0,0] 1 (by norm_num) (by norm_num)
    (by decide) (by decide)⟩

/-- Claim C1 (amended): on a uniform buffer of value v the total-pairs
histogram at v counts every scanned pair and the observed-greater
histogram vanishes; but the resulting probability is only low when no
pair is scanned — with at least one pair it exceeds one tenth and the
status is not Clean. -/
theorem C1_uniform_buffer (buf : List ℕ) (v : ℕ) (hv0 : 0 < v) (hv : v < 255)
    (hbuf : ∀ i, i < buf.length → i % 4 = 0 → buf.getD i 0 = v) :
    totalPairsPerCategory buf v = (pairStarts buf.length).length ∧
    observedFrequencies buf v = 0 ∧
    (0 < (pairStarts buf.length).length →
      1 / 10 < analyzeLSB buf ∧ classify (analyzeLSB buf) ≠ ResultStatus.Clean) ∧
    ((pairStarts buf.length).length = 0 →
      analyzeLSB buf = 0 ∧ classify (analyzeLSB buf) = ResultStatus.Clean) := by
  refine ⟨?_, uniform_observed buf v hbuf v,
    fun hnpos => uniform_not_clean buf v hv0 hv hbuf hnpos, fun hz => ?_⟩
  · rw [uniform_totalPairs buf v hv0 hv hbuf v, if_pos rfl]
  · have h0 := (analyzeLSB_uniform buf v hv0 hv hbuf).2 hz
    exact ⟨h0, by rw [h0, classify_zero]⟩

/-- Witness for the amended claim C1 at the uniform two-pixel buffer of
selected value one. -/
theorem C1_uniform_buffer_witness :
    (∀ i, i < ([1,0,0,0,1,0,0,0] : List ℕ).length → i % 4 = 0 →
      ([1,0,0,0,1,0,0,0] : List ℕ).getD i 0 = 1) ∧
    (totalPairsPerCategory [1,0,0,0,1,0,0,0] 1 =
        (pairStarts ([1,0,0,0,1,0,0,0] : List ℕ).length).length ∧
      observedFrequencies [1,0,0,0,1,0,0,0] 1 = 0 ∧
      (0 < (pairStarts ([1,0,0,0,1,0,0,0] : List ℕ).length).length →
        1 / 10 < analyzeLSB [1,0,0,0,1,0,0,0] ∧
        classify (analyzeLSB [1,0,0,0,1,0,0,0]) ≠ ResultStatus.Clean) ∧
      ((pairStarts ([1,0,0,0,1,0,0,0] : List ℕ).length).length = 0 →
        analyzeLSB [1,0,0,0,1,0,0,0] = 0 ∧
        classify (analyzeLSB [1,0,0,0,1,0,0,0]) = ResultStatus.Clean)) :=
  ⟨by decide, C1_uniform_buffer [1,0,0,0,1,0,0,0] 1 (by norm_num) (by norm_num) (by decide)⟩

end ShadowScanner
